import Mathlib

/-!
Verification of the subcommand dispatch library (subcommand.py).

The development shallowly embeds the data model and the operations of the
library: Python scalar values become an inductive type, Python dicts become
association lists that preserve insertion order, and each method of the
source is translated into a Lean function that mirrors its control flow.
The external argparse tokenizer is out of scope (the spec treats it as a
collaborator); the binder is modelled from the parsed mapping onward.
-/

namespace Subcommand

/-- Python scalar values as produced by the external tokenizer and as used
for declared parameter defaults: the None value, strings and integers. -/
inductive PyScalar where
  | vnone
  | vstr (s : String)
  | vint (n : Int)
deriving DecidableEq, Repr

/-- Values storable in a reconciled keyword set or in the instance
attribute table: either a scalar, or a whole parsed mapping, which arises
exactly when the parameter named args absorbs the parsed mapping. -/
inductive PyVal where
  | sc (v : PyScalar)
  | vdict (d : List (String × PyScalar))
deriving DecidableEq, Repr

/-- The parsed mapping returned by the tokenizer: scalar-valued dict,
modelled as an insertion-ordered association list. -/
abbrev SDict := List (String × PyScalar)

/-- A dict that may hold an absorbed parsed mapping as a value: the
reconciled keyword set and the instance attribute table. -/
abbrev VDict := List (String × PyVal)

/-- First-match lookup, the semantics of reading a dict key. -/
def lookupA {α : Type} (k : String) : List (String × α) → Option α
  | [] => Option.none
  | (j, v) :: rest => if j = k then some v else lookupA k rest

/-- Key membership test, the semantics of the Python in operator on dicts
and of hasattr on the modelled attribute table. -/
def hasKeyA {α : Type} (k : String) (d : List (String × α)) : Bool :=
  (lookupA k d).isSome

/-- Dict assignment d[k] = v: replace the first binding of k in place, or
append a new binding at the end, matching insertion-order semantics. -/
def setKeyA {α : Type} (k : String) (v : α) : List (String × α) → List (String × α)
  | [] => [(k, v)]
  | (j, w) :: rest => if j = k then (k, v) :: rest else (j, w) :: setKeyA k v rest

/-- One step of the reconciliation loop of Commands._acceptable_args: the
formal parameter kv is overwritten by the parsed value when the parsed
mapping supplies its key, and the binding is removed when its resulting
value is None so signature defaults apply. -/
def acceptStep (f : SDict) (kv : String × PyVal) : Option (String × PyVal) :=
  let w : PyVal := match lookupA kv.1 f with
    | some fv => PyVal.sc fv
    | Option.none => kv.2
  if w = PyVal.sc PyScalar.vnone then Option.none else some (kv.1, w)

/-- The accepted-arguments half of the reconciliation loop in
Commands._acceptable_args: iterate over a snapshot of the formal-parameter
dict, applying acceptStep to every binding. -/
def acceptedOf (t : VDict) (f : SDict) : VDict :=
  t.filterMap (acceptStep f)

/-- Commands._acceptable_args: if the method declares a parameter named
args, that parameter absorbs the whole parsed mapping and the leftover set
is empty; otherwise split the parsed mapping into accepted keys (present
among the formal parameters, with the None-drop rule of acceptedOf) and
leftover keys (absent from the formal parameters). -/
def acceptableArgs (t : VDict) (f : SDict) : VDict × SDict :=
  if hasKeyA "args" t then
    (setKeyA "args" (PyVal.vdict f) t, [])
  else
    (acceptedOf t f, f.filter (fun kv => !hasKeyA kv.1 t))

/-- Commands._get_args: build the formal-parameter dict of a method. The
trailing parameters paired with the declared defaults are inserted first,
from last to first; the remaining parameters, except self, follow in
reverse order seeded with None. -/
def getArgs (argNames : List String) (defaults : List PyScalar) : VDict :=
  let n := argNames.length - defaults.length
  (((argNames.drop n).zip defaults).reverse.map (fun kv => (kv.1, PyVal.sc kv.2))) ++
    (((argNames.take n).filter (fun a => a ≠ "self")).reverse.map
      (fun a => (a, PyVal.sc PyScalar.vnone)))

/-- The attribute-attachment loops of Commands._call_method: setattr each
key of the scalar dict extra on the instance unless an attribute of that
name already exists (first writer wins). -/
def attach (attrs : VDict) (extra : SDict) : VDict :=
  extra.foldl
    (fun a kv => if hasKeyA kv.1 a then a else a ++ [(kv.1, PyVal.sc kv.2)]) attrs

/-- Commands._call_method, state part: reconcile the formal parameters
with the parsed mapping, attach the leftover keys to the instance, and,
when the reconciled keyword set is exactly the single key args, also
attach every key of the absorbed mapping. Returns the keyword set passed
to the method and the updated instance attributes. -/
def callMethodState (attrs t : VDict) (f : SDict) : VDict × VDict :=
  let r := acceptableArgs t f
  let a1 := attach attrs r.2
  let a2 :=
    if r.1.length == 1 && hasKeyA "args" r.1 then
      match lookupA "args" r.1 with
      | some (PyVal.vdict d) => attach a1 d
      | _ => a1
    else a1
  (r.1, a2)

/-! ### Dictionary lemmas -/

theorem lookupA_setKeyA_self {α : Type} (k : String) (v : α) (d : List (String × α)) :
    lookupA k (setKeyA k v d) = some v := by
  induction d with
  | nil => simp [setKeyA, lookupA]
  | cons kv rest ih =>
    by_cases h : kv.1 = k
    · simp [setKeyA, h, lookupA]
    · simp [setKeyA, h, lookupA, ih]

theorem lookupA_append_left {α : Type} (k : String) (a b : List (String × α))
    (h : hasKeyA k a = true) : lookupA k (a ++ b) = lookupA k a := by
  induction a with
  | nil => simp [hasKeyA, lookupA] at h
  | cons kv rest ih =>
    by_cases hk : kv.1 = k
    · simp [lookupA, hk]
    · simp [hasKeyA, lookupA, hk] at h
      simp [lookupA, hk, ih (by simpa [hasKeyA] using h)]

theorem lookupA_attach (attrs : VDict) (e : SDict) (k : String)
    (h : hasKeyA k attrs = true) :
    lookupA k (attach attrs e) = lookupA k attrs := by
  induction e generalizing attrs with
  | nil => rfl
  | cons kv rest ih =>
    show lookupA k (List.foldl _ _ (kv :: rest)) = _
    rw [List.foldl_cons]
    by_cases hc : hasKeyA kv.1 attrs = true
    · simpa [hc] using ih attrs h
    · have hk2 : hasKeyA k (attrs ++ [(kv.1, PyVal.sc kv.2)]) = true := by
        simp [hasKeyA, lookupA_append_left k attrs _ h]
        simpa [hasKeyA] using h
      have := ih (attrs ++ [(kv.1, PyVal.sc kv.2)]) hk2
      simp only [Bool.not_eq_true] at hc
      simpa [attach, hc, lookupA_append_left k attrs _ h] using this

theorem hasKeyA_attach (attrs : VDict) (e : SDict) (k : String)
    (h : hasKeyA k attrs = true) : hasKeyA k (attach attrs e) = true := by
  simpa [hasKeyA, lookupA_attach attrs e k h] using h

theorem lookupA_acceptedOf (t : VDict) (f : SDict) (k : String) (v : PyScalar)
    (h : lookupA k f = some v) :
    lookupA k (acceptedOf t f) =
      if v = PyScalar.vnone then Option.none
      else if hasKeyA k t then some (PyVal.sc v) else Option.none := by
  induction t with
  | nil =>
    by_cases hv : v = PyScalar.vnone <;> simp [acceptedOf, lookupA, hasKeyA, hv]
  | cons kv rest ih =>
    by_cases hk : kv.1 = k
    · subst hk
      by_cases hv : v = PyScalar.vnone
      · subst hv
        simpa [acceptedOf, acceptStep, h, hasKeyA, lookupA] using ih
      · simp [acceptedOf, acceptStep, h, hv, lookupA, hasKeyA]
    · have hKeq : hasKeyA k (kv :: rest) = hasKeyA k rest := by
        simp [hasKeyA, lookupA, hk]
      have hAeq : lookupA k (acceptedOf (kv :: rest) f) = lookupA k (acceptedOf rest f) := by
        cases hstep : acceptStep f kv with
        | none => simp [acceptedOf, hstep]
        | some x =>
          have hx : x.1 = kv.1 := by
            simp only [acceptStep] at hstep
            split at hstep
            · exact absurd hstep (by simp)
            · cases hstep; rfl
          simp [acceptedOf, hstep, lookupA, hx, hk]
      rw [hAeq, hKeq]
      exact ih

/-! ### Claims about argument reconciliation -/

/-- Claim C1: on a bind of a method that does not declare an args
parameter, a formal parameter for which the parsed mapping reports the
no-value sentinel (None) is dropped from the reconciled keyword set so the
signature default applies at call time, and a formal parameter with a
non-sentinel parsed value is overwritten with that parsed value. -/
theorem C1_sentinel_drop_and_overwrite (t : VDict) (f : SDict) (k : String) (d : PyVal)
    (hargs : hasKeyA "args" t = false)
    (hk : lookupA k t = some d) :
    (lookupA k f = some PyScalar.vnone →
      lookupA k (acceptableArgs t f).1 = Option.none) ∧
    (∀ v : PyScalar, lookupA k f = some v → v ≠ PyScalar.vnone →
      lookupA k (acceptableArgs t f).1 = some (PyVal.sc v)) := by
  constructor
  · intro h
    simp [acceptableArgs, hargs, lookupA_acceptedOf t f k _ h]
  · intro v h hv
    have hkt : hasKeyA k t = true := by simp [hasKeyA, hk]
    simp [acceptableArgs, hargs, lookupA_acceptedOf t f k v h, hv, hkt]

/-- Witness for claim C1, on the formal parameters of
hello(self, name, count=1) with parsed mapping
(name: derrick, count: None): count is dropped, name is overwritten. -/
theorem C1_sentinel_drop_and_overwrite_witness :
    lookupA "count" (acceptableArgs (getArgs ["self", "name", "count"] [PyScalar.vint 1])
        [("name", PyScalar.vstr "derrick"), ("count", PyScalar.vnone)]).1 = Option.none ∧
    lookupA "name" (acceptableArgs (getArgs ["self", "name", "count"] [PyScalar.vint 1])
        [("name", PyScalar.vstr "derrick"), ("count", PyScalar.vnone)]).1 =
      some (PyVal.sc (PyScalar.vstr "derrick")) :=
  ⟨(C1_sentinel_drop_and_overwrite _ _ "count" (PyVal.sc (PyScalar.vint 1))
      (by decide) (by decide)).1 (by decide),
   (C1_sentinel_drop_and_overwrite _ _ "name" (PyVal.sc PyScalar.vnone)
      (by decide) (by decide)).2 (PyScalar.vstr "derrick") (by decide) (by decide)⟩

/-- Claim C3: ambient state is set-once: an attribute already present on
the command-group instance before reconciliation keeps its value, so
neither the leftover-key propagation nor the args-absorption propagation
overwrites an existing attribute (first writer wins). -/
theorem C3_ambient_state_first_writer_wins (attrs t : VDict) (f : SDict) (k : String)
    (h : hasKeyA k attrs = true) :
    lookupA k (callMethodState attrs t f).2 = lookupA k attrs := by
  have h1 : lookupA k (attach attrs (acceptableArgs t f).2) = lookupA k attrs :=
    lookupA_attach _ _ _ h
  have h1k : hasKeyA k (attach attrs (acceptableArgs t f).2) = true :=
    hasKeyA_attach _ _ _ h
  show lookupA k
      (if (acceptableArgs t f).1.length == 1 && hasKeyA "args" (acceptableArgs t f).1 then
        match lookupA "args" (acceptableArgs t f).1 with
        | some (PyVal.vdict d) => attach (attach attrs (acceptableArgs t f).2) d
        | _ => attach attrs (acceptableArgs t f).2
      else attach attrs (acceptableArgs t f).2) = lookupA k attrs
  split
  · split
    · rw [lookupA_attach _ _ _ h1k, h1]
    · exact h1
  · exact h1

/-- Witness for claim C3: an instance that already carries a debug
attribute keeps its value although the parsed mapping supplies a leftover
value under the same name. -/
theorem C3_ambient_state_first_writer_wins_witness :
    lookupA "debug" (callMethodState [("debug", PyVal.sc (PyScalar.vstr "old"))]
        [("name", PyVal.sc PyScalar.vnone)]
        [("name", PyScalar.vstr "a"), ("debug", PyScalar.vstr "new")]).2 =
      lookupA "debug" [("debug", PyVal.sc (PyScalar.vstr "old"))] :=
  C3_ambient_state_first_writer_wins _ _ _ "debug" (by decide)

/-- Counterexample for claim C2: for the method
cmd(self, args, extra=1) with parsed mapping (foo: bar), the args
parameter absorbs the whole mapping and the leftover set is empty, yet the
key foo of the absorbed mapping is not attached to the instance, because
the attachment loop of Commands._call_method only runs when the reconciled
keyword set has exactly one entry. -/
theorem C2_counterexample :
    (hasKeyA "args" (getArgs ["self", "args", "extra"] [PyScalar.vint 1]) = true) ∧
    (acceptableArgs (getArgs ["self", "args", "extra"] [PyScalar.vint 1])
        [("foo", PyScalar.vstr "bar")]).2 = [] ∧
    lookupA "args" (acceptableArgs (getArgs ["self", "args", "extra"] [PyScalar.vint 1])
        [("foo", PyScalar.vstr "bar")]).1 =
      some (PyVal.vdict [("foo", PyScalar.vstr "bar")]) ∧
    hasKeyA "foo" (callMethodState [] (getArgs ["self", "args", "extra"] [PyScalar.vint 1])
        [("foo", PyScalar.vstr "bar")]).2 = false := by
  decide

/-- Claim C2 as amended: when a method declares a parameter named args,
the reconciliation binds args to the entire parsed mapping verbatim and
returns an empty leftover set, but the computed defaults of the other
formal parameters are retained in the keyword set, and the keys of the
absorbed mapping are propagated to the instance (first writer wins) only
when args is the sole entry of the reconciled keyword set. -/
theorem C2_args_absorption (attrs t : VDict) (f : SDict)
    (h : hasKeyA "args" t = true) :
    (acceptableArgs t f).1 = setKeyA "args" (PyVal.vdict f) t ∧
    (acceptableArgs t f).2 = [] ∧
    lookupA "args" (acceptableArgs t f).1 = some (PyVal.vdict f) ∧
    ((acceptableArgs t f).1.length = 1 →
      (callMethodState attrs t f).2 = attach attrs f) ∧
    ((acceptableArgs t f).1.length ≠ 1 →
      (callMethodState attrs t f).2 = attrs) := by
  have hacc : acceptableArgs t f = (setKeyA "args" (PyVal.vdict f) t, []) := by
    simp [acceptableArgs, h]
  have hlk : lookupA "args" (acceptableArgs t f).1 = some (PyVal.vdict f) := by
    rw [hacc]; exact lookupA_setKeyA_self _ _ _
  refine ⟨by rw [hacc], by rw [hacc], hlk, ?_, ?_⟩
  · intro hlen
    show (if (acceptableArgs t f).1.length == 1 && hasKeyA "args" (acceptableArgs t f).1 then
        match lookupA "args" (acceptableArgs t f).1 with
        | some (PyVal.vdict d) => attach (attach attrs (acceptableArgs t f).2) d
        | _ => attach attrs (acceptableArgs t f).2
      else attach attrs (acceptableArgs t f).2) = attach attrs f
    have hck : hasKeyA "args" (acceptableArgs t f).1 = true := by
      simp [hasKeyA, hlk]
    rw [if_pos (by simp [hlen, hck]), hlk]
    rw [hacc]
    rfl
  · intro hlen
    show (if (acceptableArgs t f).1.length == 1 && hasKeyA "args" (acceptableArgs t f).1 then
        match lookupA "args" (acceptableArgs t f).1 with
        | some (PyVal.vdict d) => attach (attach attrs (acceptableArgs t f).2) d
        | _ => attach attrs (acceptableArgs t f).2
      else attach attrs (acceptableArgs t f).2) = attrs
    rw [if_neg (by simp [hlen]), hacc]
    rfl

/-- Witness for the amended claim C2, on the method cmd(self, args) with
parsed mapping (foo: bar) and an empty attribute table: the absorbed
mapping is propagated because args is the sole reconciled keyword. -/
theorem C2_args_absorption_witness :
    (acceptableArgs [("args", PyVal.sc PyScalar.vnone)] [("foo", PyScalar.vstr "bar")]).2 = [] ∧
    lookupA "args" (acceptableArgs [("args", PyVal.sc PyScalar.vnone)]
        [("foo", PyScalar.vstr "bar")]).1 =
      some (PyVal.vdict [("foo", PyScalar.vstr "bar")]) ∧
    (callMethodState [] [("args", PyVal.sc PyScalar.vnone)]
        [("foo", PyScalar.vstr "bar")]).2 =
      attach [] [("foo", PyScalar.vstr "bar")] :=
  ⟨(C2_args_absorption [] _ _ (by decide)).2.1,
   (C2_args_absorption [] _ _ (by decide)).2.2.1,
   (C2_args_absorption [] _ _ (by decide)).2.2.2.1 (by decide)⟩

/-- Counterexample for claim C7: for a formal parameter p without a
declared default (seeded with the None sentinel), a parsed mapping that
explicitly supplies None for p and one that omits p entirely produce the
same reconciliation result and the same instance state: the two cases are
not distinguishable. -/
theorem C7_counterexample :
    acceptableArgs [("p", PyVal.sc PyScalar.vnone)] [("p", PyScalar.vnone)] =
      acceptableArgs [("p", PyVal.sc PyScalar.vnone)] [] ∧
    callMethodState [] [("p", PyVal.sc PyScalar.vnone)] [("p", PyScalar.vnone)] =
      callMethodState [] [("p", PyVal.sc PyScalar.vnone)] [] := by
  decide

/-- Claim C7 as amended: the no-value seed of a parameter without a
declared default is the None value itself, so it is not distinguishable
from a legitimate None supplied by the caller: on the non-absorbing path,
for a formal parameter whose every seed is the sentinel, a parsed mapping
that explicitly supplies None for it reconciles exactly like one that
omits it entirely. -/
theorem C7_explicit_none_equals_omitted (t : VDict) (f : SDict) (k : String)
    (hargs : hasKeyA "args" t = false)
    (hkt : hasKeyA k t = true)
    (hseed : ∀ d ∈ t, d.1 = k → d.2 = PyVal.sc PyScalar.vnone)
    (hf : hasKeyA k f = false) :
    acceptableArgs t ((k, PyScalar.vnone) :: f) = acceptableArgs t f := by
  have hfl : lookupA k f = Option.none := by
    cases hlo : lookupA k f with
    | none => rfl
    | some v => rw [hasKeyA, hlo] at hf; simp at hf
  have haccept : acceptedOf t ((k, PyScalar.vnone) :: f) = acceptedOf t f := by
    apply List.filterMap_congr
    intro kv hkv
    by_cases hkk : kv.1 = k
    · have hv : kv.2 = PyVal.sc PyScalar.vnone := hseed kv hkv hkk
      simp [acceptStep, lookupA, hkk, hfl, hv]
    · have hne : ¬ k = kv.1 := fun h => hkk h.symm
      simp [acceptStep, lookupA, hne]
  have hleft : ((k, PyScalar.vnone) :: f).filter (fun kv => !hasKeyA kv.1 t) =
      f.filter (fun kv => !hasKeyA kv.1 t) := by
    simp [List.filter_cons, hkt]
  simp [acceptableArgs, hargs, haccept, hleft]

/-- Witness for the amended claim C7, on a method with the single
no-default parameter p: an explicit None for p and an absent p reconcile
identically. -/
theorem C7_explicit_none_equals_omitted_witness :
    acceptableArgs [("p", PyVal.sc PyScalar.vnone)]
        ((("p", PyScalar.vnone)) :: [("q", PyScalar.vstr "x")]) =
      acceptableArgs [("p", PyVal.sc PyScalar.vnone)] [("q", PyScalar.vstr "x")] :=
  C7_explicit_none_equals_omitted _ _ "p" (by decide) (by decide)
    (by decide) (by decide)

/-! ### Command registry and name normalization -/

/-- One option declaration: the positional or flag token strings together
with the keyword configuration passed through to the external tokenizer. -/
structure OptSchema where
  args : List String
  kwargs : List (String × String)
deriving DecidableEq, Repr

/-- The character substitution of re.sub underscore-to-hyphen. -/
def hyphChar (c : Char) : Char := if c = '_' then '-' else c

/-- The character substitution of re.sub hyphen-to-underscore. -/
def underChar (c : Char) : Char := if c = '-' then '_' else c

/-- The name normalization of Commands._methods_with_opts: every
underscore of the method identifier becomes a hyphen. -/
def hyphenate (s : String) : String := String.mk (s.data.map hyphChar)

/-- The key conversion of Commands._parse_args: every hyphen of a parsed
key becomes an underscore. -/
def underscore (s : String) : String := String.mk (s.data.map underChar)

/-- A method as seen by dir-based discovery: its identifier and, when at
least one opt or noargs decorator was applied, its option list. -/
structure RawMethod where
  name : String
  options : Option (List OptSchema)
deriving DecidableEq, Repr

/-- The name.startswith test on a double underscore used to skip dunder
members during discovery and during wrapper attribute copying. -/
def isDunder (s : String) : Bool :=
  match s.data with
  | '_' :: '_' :: _ => true
  | _ => false

/-- One iteration of the discovery loop of Commands._methods_with_opts:
skip dunder names, skip methods without the options attribute, and store
every other method under its hyphenated name. -/
def registryStep (acc : List (String × List OptSchema)) (m : RawMethod) :
    List (String × List OptSchema) :=
  if isDunder m.name then acc
  else match m.options with
    | some opts => setKeyA (hyphenate m.name) opts acc
    | Option.none => acc

/-- Commands._methods_with_opts: scan the members of the instance and
collect the name-to-method registry. -/
def methodsWithOpts (ms : List RawMethod) : List (String × List OptSchema) :=
  ms.foldl registryStep []

/-- The registry entry a single method contributes: none when it is
skipped, otherwise its hyphenated name with its option list. -/
def qualEntry (m : RawMethod) : Option (String × List OptSchema) :=
  if isDunder m.name then Option.none
  else m.options.map (fun opts => (hyphenate m.name, opts))

/-- The key-conversion loop of Commands._parse_args: rebuild the parsed
mapping with every hyphen of a key replaced by an underscore. -/
def convertKeys (d : SDict) : SDict :=
  d.foldl (fun acc kv => setKeyA (underscore kv.1) kv.2 acc) []

theorem hasKeyA_eq_false_iff {α : Type} (k : String) (d : List (String × α)) :
    hasKeyA k d = false ↔ k ∉ d.map Prod.fst := by
  induction d with
  | nil => simp [hasKeyA, lookupA]
  | cons kv rest ih =>
    by_cases h : kv.1 = k
    · simp [hasKeyA, lookupA, h]
    · simp only [hasKeyA, lookupA, if_neg h, List.map_cons, List.mem_cons]
      rw [← hasKeyA]
      constructor
      · intro hh
        rintro (rfl | hmem)
        · exact h rfl
        · exact (ih.mp hh) hmem
      · intro hh
        exact ih.mpr (fun hmem => hh (Or.inr hmem))

theorem setKeyA_not_mem {α : Type} (k : String) (v : α) (d : List (String × α))
    (h : hasKeyA k d = false) : setKeyA k v d = d ++ [(k, v)] := by
  induction d with
  | nil => rfl
  | cons kv rest ih =>
    by_cases hk : kv.1 = k
    · simp [hasKeyA, lookupA, hk] at h
    · simp only [hasKeyA, lookupA, if_neg hk] at h
      simp [setKeyA, hk, ih (by simpa [hasKeyA] using h)]

theorem qualEntry_fst (m : RawMethod) (e : String × List OptSchema)
    (h : qualEntry m = some e) : e.1 = hyphenate m.name := by
  by_cases hd : isDunder m.name
  · simp [qualEntry, hd] at h
  · cases ho : m.options with
    | none => simp [qualEntry, hd, ho] at h
    | some opts =>
      simp [qualEntry, hd, ho] at h
      rw [← h]

theorem registryStep_of_none (acc : List (String × List OptSchema)) (m : RawMethod)
    (h : qualEntry m = Option.none) : registryStep acc m = acc := by
  by_cases hd : isDunder m.name
  · simp [registryStep, hd]
  · simp [qualEntry, hd, Option.map_eq_none'] at h
    simp [registryStep, hd, h]

theorem registryStep_of_some (acc : List (String × List OptSchema)) (m : RawMethod)
    (e : String × List OptSchema) (h : qualEntry m = some e) :
    registryStep acc m = setKeyA e.1 e.2 acc := by
  by_cases hd : isDunder m.name
  · simp [qualEntry, hd] at h
  · cases ho : m.options with
    | none => simp [qualEntry, hd, ho] at h
    | some opts =>
      simp [qualEntry, hd, ho] at h
      rw [← h]
      simp [registryStep, hd, ho]

theorem registry_foldl (ms : List RawMethod) :
    ∀ acc : List (String × List OptSchema),
      ((acc.map Prod.fst) ++ (ms.filterMap qualEntry).map Prod.fst).Nodup →
      ms.foldl registryStep acc = acc ++ ms.filterMap qualEntry := by
  induction ms with
  | nil => intro acc _; simp
  | cons m rest ih =>
    intro acc h
    cases hq : qualEntry m with
    | none =>
      rw [List.foldl_cons, registryStep_of_none acc m hq]
      rw [List.filterMap_cons] at h ⊢
      rw [hq] at h ⊢
      exact ih acc h
    | some e =>
      rw [List.foldl_cons, registryStep_of_some acc m e hq]
      rw [List.filterMap_cons] at h ⊢
      rw [hq] at h ⊢
      have hkeys : ((acc.map Prod.fst) ++
          e.1 :: (rest.filterMap qualEntry).map Prod.fst).Nodup := by
        simpa using h
      have hfresh : hasKeyA e.1 acc = false := by
        rw [hasKeyA_eq_false_iff]
        intro hmem
        have hdisj := (List.nodup_append.mp hkeys).2.2
        exact hdisj hmem (List.mem_cons_self _ _)
      rw [setKeyA_not_mem _ _ _ hfresh]
      have hnext : (((acc ++ [(e.1, e.2)]).map Prod.fst) ++
          (rest.filterMap qualEntry).map Prod.fst).Nodup := by
        simpa [List.append_assoc] using hkeys
      have := ih (acc ++ [(e.1, e.2)]) hnext
      simpa [List.append_assoc] using this

theorem underscore_hyphenate (s : String) (h : '-' ∉ s.data) :
    underscore (hyphenate s) = s := by
  have hmap : (s.data.map hyphChar).map underChar = s.data := by
    rw [List.map_map]
    have hc : ∀ c ∈ s.data, (underChar ∘ hyphChar) c = c := by
      intro c hc
      by_cases h1 : c = '_'
      · simp [Function.comp, hyphChar, underChar, h1]
      · have h2 : c ≠ '-' := fun hh => h (hh ▸ hc)
        simp [Function.comp, hyphChar, underChar, h1, h2]
    rw [List.map_congr_left hc]
    exact List.map_id _
  show String.mk ((s.data.map hyphChar).map underChar) = s
  rw [hmap]

theorem qualKeys_sublist (ms : List RawMethod) :
    ((ms.filterMap qualEntry).map Prod.fst).Sublist
      (ms.map (fun m => hyphenate m.name)) := by
  induction ms with
  | nil => simp
  | cons m rest ih =>
    rw [List.filterMap_cons]
    cases hq : qualEntry m with
    | none => exact List.Sublist.cons _ ih
    | some e =>
      rw [List.map_cons, qualEntry_fst m e hq]
      exact List.Sublist.cons₂ _ ih

/-- Claim C4: discovery produces exactly one registry entry per method
carrying an attached option list, keyed by the identifier with every
underscore replaced by a hyphen, and the hyphen-to-underscore conversion
applied to parsed keys is its inverse, so underscore-only identifiers
round-trip. -/
theorem C4_registry_and_roundtrip (ms : List RawMethod)
    (hnodup : (ms.map RawMethod.name).Nodup)
    (hnohyph : ∀ m ∈ ms, '-' ∉ m.name.data) :
    methodsWithOpts ms = ms.filterMap qualEntry ∧
    (∀ m ∈ ms, underscore (hyphenate m.name) = m.name) ∧
    (∀ m ∈ ms, ∀ v : PyScalar,
      convertKeys [(hyphenate m.name, v)] = [(m.name, v)]) := by
  have hround : ∀ m ∈ ms, underscore (hyphenate m.name) = m.name := by
    intro m hm
    exact underscore_hyphenate _ (hnohyph m hm)
  have hmapnodup : (ms.map (fun m => hyphenate m.name)).Nodup := by
    apply List.Nodup.map_on
    · intro x hx y hy hxy
      have hx1 : underscore (hyphenate x.name) = x.name := hround x hx
      have hy1 : underscore (hyphenate y.name) = y.name := hround y hy
      have hname : x.name = y.name := by rw [← hx1, ← hy1, hxy]
      have : ∀ a ∈ ms, ∀ b ∈ ms, a.name = b.name → a = b := by
        intro a ha b hb hab
        by_contra hne
        have := List.inj_on_of_nodup_map ?_ ha hb hab
        · exact hne this
        · have : (ms.map RawMethod.name).Nodup := hnodup
          exact this
      exact this x hx y hy hname
    · exact List.Nodup.of_map RawMethod.name hnodup
  have hqualnodup : (((ms.filterMap qualEntry).map Prod.fst)).Nodup :=
    (qualKeys_sublist ms).nodup hmapnodup
  refine ⟨?_, hround, ?_⟩
  · have := registry_foldl ms [] (by simpa using hqualnodup)
    simpa using this
  · intro m hm v
    show setKeyA (underscore (hyphenate m.name)) v [] = [(m.name, v)]
    rw [hround m hm]
    rfl

/-- Witness for claim C4: a group with a qualifying method hello_world, a
dunder member and a plain helper method yields exactly the single entry
hello-world, and the key conversion recovers hello_world. -/
theorem C4_registry_and_roundtrip_witness :
    methodsWithOpts
        [⟨"hello_world", some [⟨["--count"], []⟩]⟩, ⟨"__init__", Option.none⟩,
          ⟨"helper", Option.none⟩] =
      [("hello-world", [⟨["--count"], []⟩])] ∧
    underscore (hyphenate "hello_world") = "hello_world" := by
  have h := C4_registry_and_roundtrip
      [⟨"hello_world", some [⟨["--count"], []⟩]⟩, ⟨"__init__", Option.none⟩,
        ⟨"helper", Option.none⟩] (by decide) (by decide)
  exact ⟨h.1.trans (by decide),
    h.2.1 ⟨"hello_world", some [⟨["--count"], []⟩]⟩ (by simp)⟩

/-! ### Parser schema construction and the MethodWrapper copy -/

/-- An instance attribute value as far as the wrapper-copy logic is
concerned: the shared-option list stored under the name globals, or some
other object such as a bound method. -/
inductive AttrVal where
  | optList (l : List OptSchema)
  | methodObj (n : String)
deriving DecidableEq, Repr

/-- The non-dunder names of dir on a freshly constructed MethodWrapper:
its instance dict is still empty, so only class-level members of
MethodWrapper and Commands appear, in the sorted order dir yields. The
attribute globals is absent because Commands.opt creates it on the
instance, not on the class, and so are any members of the user subclass,
which is not an ancestor of MethodWrapper. -/
def commandsClassAttrs : List String :=
  ["_acceptable_args", "_call_method", "_get_args", "_methods_with_opts",
   "_parse_args", "bash_completion", "help", "opt", "pre_command", "remove", "split"]

/-- Python getattr on a Commands instance: the instance attribute when
present, otherwise the class attribute, a bound method. -/
def getattrModel (instAttrs : List (String × AttrVal)) (n : String) : AttrVal :=
  match lookupA n instAttrs with
  | some v => v
  | Option.none => AttrVal.methodObj n

/-- MethodWrapper.__init__: copy onto the fresh wrapper every non-dunder
name of dir(self), reading each value from the wrapped instance. -/
def methodWrapperAttrs (cmdInstAttrs : List (String × AttrVal)) :
    List (String × AttrVal) :=
  commandsClassAttrs.foldl
    (fun acc n =>
      if isDunder n then acc else setKeyA n (getattrModel cmdInstAttrs n) acc) []

/-- The shared options as read by hasattr(self, globals) followed by
iteration over self.globals in Commands._parse_args. -/
def globalsOf (attrs : List (String × AttrVal)) : Option (List OptSchema) :=
  match lookupA "globals" attrs with
  | some (AttrVal.optList l) => some l
  | _ => Option.none

/-- The tokenizer schema built by Commands._parse_args: the method's own
option declarations in order, followed by the shared options when the
instance carries a globals attribute. -/
def parseSchema (methodOpts : List OptSchema)
    (attrs : List (String × AttrVal)) : List OptSchema :=
  methodOpts ++ (match globalsOf attrs with
    | some g => g
    | Option.none => [])

theorem lookupA_setKeyA_ne {α : Type} (k j : String) (v : α)
    (d : List (String × α)) (h : ¬ j = k) :
    lookupA k (setKeyA j v d) = lookupA k d := by
  induction d with
  | nil => simp [setKeyA, lookupA, h]
  | cons kv rest ih =>
    by_cases hk : kv.1 = j
    · simp [setKeyA, hk, lookupA, h]
    · simp [setKeyA, hk, lookupA, ih]

theorem globals_not_copied (cmdInstAttrs : List (String × AttrVal)) :
    lookupA "globals" (methodWrapperAttrs cmdInstAttrs) = Option.none := by
  have main : ∀ (names : List String) (acc : List (String × AttrVal)),
      "globals" ∉ names → lookupA "globals" acc = Option.none →
      lookupA "globals" (names.foldl
        (fun acc n =>
          if isDunder n then acc else setKeyA n (getattrModel cmdInstAttrs n) acc)
        acc) = Option.none := by
    intro names
    induction names with
    | nil => intro acc _ hacc; exact hacc
    | cons n rest ih =>
      intro acc hmem hacc
      rw [List.foldl_cons]
      refine ih _ (fun hh => hmem (List.mem_cons_of_mem _ hh)) ?_
      by_cases hd : isDunder n
      · simpa [hd] using hacc
      · have hne : ¬ n = "globals" := fun hh => hmem (hh ▸ List.mem_cons_self _ _)
        simp [hd, lookupA_setKeyA_ne _ _ _ _ hne, hacc]
  exact main commandsClassAttrs [] (by decide) rfl

/-- Counterexample for claim C5: a command group whose instance carries a
shared option under globals. In the sub-command variant the schema is the
command option followed by the shared option, but in the flat variant the
MethodWrapper copy loses the instance-level globals attribute, so the
schema built for the wrapped method omits the shared option, and the two
schemas differ. -/
theorem C5_counterexample :
    parseSchema [⟨["name"], []⟩]
        (methodWrapperAttrs [("globals", AttrVal.optList [⟨["-d", "--debug"], []⟩])]) =
      [⟨["name"], []⟩] ∧
    parseSchema [⟨["name"], []⟩]
        [("globals", AttrVal.optList [⟨["-d", "--debug"], []⟩])] =
      [⟨["name"], []⟩, ⟨["-d", "--debug"], []⟩] ∧
    ([⟨["name"], []⟩] : List OptSchema) ≠
      [⟨["name"], []⟩, ⟨["-d", "--debug"], []⟩] := by
  refine ⟨?_, by decide, by decide⟩
  show [OptSchema.mk ["name"] []] ++ _ = [OptSchema.mk ["name"] []]
  rw [show globalsOf (methodWrapperAttrs
      [("globals", AttrVal.optList [⟨["-d", "--debug"], []⟩])]) = Option.none from by
    rw [globalsOf, globals_not_copied]]
  simp

/-- Claim C5 as amended: in the sub-command variant the tokenizer schema
is the command's own option schemas in order followed by the group's
shared options; in the flat variant the MethodWrapper copies only
class-level attribute names, the instance-level globals list is not
carried over, and the schema consists of the command's options alone. -/
theorem C5_schema_order (methodOpts g : List OptSchema)
    (rest cmdInstAttrs : List (String × AttrVal)) :
    parseSchema methodOpts (("globals", AttrVal.optList g) :: rest) =
      methodOpts ++ g ∧
    parseSchema methodOpts (methodWrapperAttrs cmdInstAttrs) = methodOpts := by
  constructor
  · rfl
  · show methodOpts ++ _ = methodOpts
    rw [show globalsOf (methodWrapperAttrs cmdInstAttrs) = Option.none from by
      rw [globalsOf, globals_not_copied]]
    simp

/-! ### Decorator stacking order -/

/-- A method as the opt and noargs decorators see it: possibly carrying
the options attribute. -/
structure PyMethod where
  options : Option (List OptSchema)
deriving DecidableEq, Repr

/-- The opt decorator: create the options attribute when missing, then
append the declaration when it names at least one token. -/
def optDecorator (schema : OptSchema) (m : PyMethod) : PyMethod :=
  let base := match m.options with
    | some l => l
    | Option.none => []
  if schema.args.isEmpty then { options := some base }
  else { options := some (base ++ [schema]) }

/-- The noargs decorator: set an empty options attribute. -/
def noargsDecorator (_ : PyMethod) : PyMethod := { options := some [] }

/-- A stack of opt decorators written top to bottom above a method:
Python applies the bottom-most, innermost, one first. -/
def applyOptStack (decls : List OptSchema) (m : PyMethod) : PyMethod :=
  decls.foldr optDecorator m

/-- Counterexample for claim C6: with the declaration of the flag
(--count) written topmost above the declaration of the positional (name),
the attached option sequence lists (name) first, so the topmost
declaration appears last, not first. -/
theorem C6_counterexample :
    (applyOptStack [⟨["--count"], []⟩, ⟨["name"], []⟩] ⟨Option.none⟩).options =
      some [OptSchema.mk ["name"] [], OptSchema.mk ["--count"] []] ∧
    some [OptSchema.mk ["name"] [], OptSchema.mk ["--count"] []] ≠
      some [OptSchema.mk ["--count"] [], OptSchema.mk ["name"] []] := by
  decide

/-- Claim C6 as amended: a stack of option declarations, each naming at
least one token, attaches to the method in bottom-most-first order: the
attached sequence is the reverse of the top-to-bottom declaration order,
because Python applies the innermost decorator first and each application
appends. -/
theorem C6_options_innermost_first (decls : List OptSchema) (hne : decls ≠ [])
    (h : ∀ d ∈ decls, d.args ≠ []) :
    (applyOptStack decls ⟨Option.none⟩).options = some decls.reverse := by
  induction decls with
  | nil => exact absurd rfl hne
  | cons d rest ih =>
    have hd : d.args.isEmpty = false := by
      rcases hargs : d.args with _ | _
      · exact absurd hargs (h d (List.mem_cons_self _ _))
      · rfl
    show (optDecorator d (applyOptStack rest ⟨Option.none⟩)).options = _
    by_cases hrnil : rest = []
    · subst hrnil
      simp [applyOptStack, optDecorator, hd]
    · have hrest : applyOptStack rest ⟨Option.none⟩ = ⟨some rest.reverse⟩ := by
        rw [← ih hrnil (fun x hx => h x (List.mem_cons_of_mem _ hx))]
      rw [hrest]
      simp [optDecorator, hd]

/-- Witness for the amended claim C6: the stack of the test command hello,
(--count) above (name), attaches (name) first. -/
theorem C6_options_innermost_first_witness :
    (applyOptStack [⟨["--count"], []⟩, ⟨["name"], []⟩] ⟨Option.none⟩).options =
      some [OptSchema.mk ["--count"] [], OptSchema.mk ["name"] []].reverse :=
  C6_options_innermost_first [⟨["--count"], []⟩, ⟨["name"], []⟩]
    (by decide) (by decide)

/-! ### Dispatching -/

/-- The scan loop shared by SubParser.run and Commands.__call__: the index
of the first token that is a registered name, in left-to-right order. -/
def findCommandIdx (names : List String) : List String → Option Nat
  | [] => Option.none
  | a :: rest =>
    if names.contains a then some 0
    else (findCommandIdx names rest).map (· + 1)

/-- The pop-and-forward step of both dispatch levels: remove the first
matching token from the list in place and return it with the remainder. -/
def popFirstMatch (names args : List String) : Option (String × List String) :=
  match findCommandIdx names args with
  | some i => some (args.getD i "", args.eraseIdx i)
  | Option.none => Option.none

/-- The possible outcomes of one SubParser.run dispatch. -/
inductive RunOutcome where
  | completion
  | completionScript
  | invoked (name : String) (rest : List String)
  | helpShown
deriving DecidableEq, Repr

/-- SubParser.run on an already-resolved token list: handle the two
completion meta-flags, then scan for a registered group name, pop it and
forward; without a match, show the help listing. -/
def subParserDispatch (names args : List String) : RunOutcome :=
  if args.contains "--bash-completion" then RunOutcome.completion
  else if args.contains "--bash-completion-script" then RunOutcome.completionScript
  else match popFirstMatch names args with
    | some (n, rest) => RunOutcome.invoked n rest
    | Option.none => RunOutcome.helpShown

/-- Commands.__call__: scan for a registered command name, pop it and
forward to the argument binder; without a match, show the group help. -/
def commandsDispatch (cmdNames args : List String) : RunOutcome :=
  match popFirstMatch cmdNames args with
  | some (n, rest) => RunOutcome.invoked n rest
  | Option.none => RunOutcome.helpShown

/-- The value SubParser.run reports: a matched group propagates the value
of the invoked command, the help path returns 1, bash completion returns
0 and the completion-script path returns Python None. -/
def runReturn (names args : List String)
    (invoke : String → List String → Option Int) : Option Int :=
  match subParserDispatch names args with
  | RunOutcome.completion => some 0
  | RunOutcome.completionScript => Option.none
  | RunOutcome.invoked n rest => invoke n rest
  | RunOutcome.helpShown => some 1

/-- os.path.basename on a slash-separated path. -/
def basename (s : String) : String := (s.splitOn "/").getLastD ""

/-- The argument-defaulting prologue of SubParser.run: a missing or empty
token list is replaced by the live argument vector, here split into the
program path argv0 and the remaining tokens argvRest, and the program
name is replaced by the basename of argv0. -/
def resolveRunInputs (argsOpt : Option (List String)) (progOpt : Option String)
    (argv0 : String) (argvRest : List String) : List String × Option String :=
  match argsOpt with
  | Option.none => (argvRest, some (basename argv0))
  | some l =>
    if l.isEmpty then (argvRest, some (basename argv0)) else (l, progOpt)

/-- SubParser.run in full: default the inputs, then dispatch. Returns the
dispatch outcome together with the program name stored on the parser. -/
def subParserRun (names : List String) (argsOpt : Option (List String))
    (progOpt : Option String) (argv0 : String) (argvRest : List String) :
    RunOutcome × Option String :=
  let rp := resolveRunInputs argsOpt progOpt argv0 argvRest
  (subParserDispatch names rp.1, rp.2)

theorem findCommandIdx_eq_none (names args : List String)
    (h : ∀ a ∈ args, names.contains a = false) :
    findCommandIdx names args = Option.none := by
  induction args with
  | nil => rfl
  | cons a rest ih =>
    have ha : names.contains a = false := h a (List.mem_cons_self _ _)
    rw [show findCommandIdx names (a :: rest) =
        if names.contains a then some 0
        else (findCommandIdx names rest).map (· + 1) from rfl]
    rw [ha]
    simp [ih (fun x hx => h x (List.mem_cons_of_mem _ hx))]

/-- Claim C8: for a token list in which no token matches a registered name
and that carries no completion meta-flag, dispatch shows the usage
listing and returns the failure value 1; no command method is ever
invoked, whatever invoke would do, and the dispatch function is total, so
no exception or abort occurs. -/
theorem C8_unmatched_tokens_show_help (names args : List String)
    (hmatch : ∀ a ∈ args, names.contains a = false)
    (hc1 : "--bash-completion" ∉ args)
    (hc2 : "--bash-completion-script" ∉ args) :
    subParserDispatch names args = RunOutcome.helpShown ∧
    (∀ invoke, runReturn names args invoke = some 1) ∧
    (∀ invoke invoke2, runReturn names args invoke = runReturn names args invoke2) := by
  have hdisp : subParserDispatch names args = RunOutcome.helpShown := by
    rw [subParserDispatch,
      if_neg (by simpa using hc1),
      if_neg (by simpa using hc2)]
    rw [popFirstMatch, findCommandIdx_eq_none names args hmatch]
  refine ⟨hdisp, ?_, ?_⟩
  · intro invoke
    rw [runReturn, hdisp]
  · intro invoke invoke2
    rw [runReturn, runReturn, hdisp]

/-- Witness for claim C8: the token list with the single unrecognized
token nonexistent against the single registered group test. -/
theorem C8_unmatched_tokens_show_help_witness :
    subParserDispatch ["test"] ["nonexistent"] = RunOutcome.helpShown ∧
    runReturn ["test"] ["nonexistent"] (fun _ _ => some 0) = some 1 :=
  ⟨(C8_unmatched_tokens_show_help ["test"] ["nonexistent"]
      (by decide) (by decide) (by decide)).1,
   (C8_unmatched_tokens_show_help ["test"] ["nonexistent"]
      (by decide) (by decide) (by decide)).2.1 _⟩

/-- Claim C9: a run with an explicitly supplied empty token list behaves
exactly as a run with no token list at all: the tokens become the live
argument vector minus the program path, and the program name becomes the
basename of the program path, overriding any supplied one. -/
theorem C9_empty_args_uses_argv (names : List String) (progOpt : Option String)
    (argv0 : String) (argvRest : List String) :
    subParserRun names (some []) progOpt argv0 argvRest =
      subParserRun names Option.none progOpt argv0 argvRest ∧
    (subParserRun names (some []) progOpt argv0 argvRest).2 =
      some (basename argv0) ∧
    (resolveRunInputs (some []) progOpt argv0 argvRest).1 = argvRest :=
  ⟨rfl, rfl, rfl⟩

theorem findCommandIdx_some (names args : List String) (i : Nat)
    (h : findCommandIdx names args = some i) :
    i < args.length ∧ names.contains (args.getD i "") = true := by
  induction args generalizing i with
  | nil => cases h
  | cons a rest ih =>
    by_cases ha : names.contains a
    · have h0 : i = 0 := by
        rw [show findCommandIdx names (a :: rest) =
            if names.contains a then some 0
            else (findCommandIdx names rest).map (· + 1) from rfl, if_pos ha] at h
        exact (Option.some_inj.mp h).symm
      subst h0
      exact ⟨Nat.succ_pos _, ha⟩
    · rw [show findCommandIdx names (a :: rest) =
          if names.contains a then some 0
          else (findCommandIdx names rest).map (· + 1) from rfl, if_neg ha] at h
      cases hj : findCommandIdx names rest with
      | none => rw [hj] at h; cases h
      | some j =>
        rw [hj] at h
        have hij : i = j + 1 := (Option.some_inj.mp h).symm
        subst hij
        obtain ⟨hlt, hcon⟩ := ih j hj
        exact ⟨Nat.succ_lt_succ hlt, hcon⟩

/-- Claim C10: at either dispatch level, a successful resolution removes
exactly the first matching token from the caller-supplied list: the
resulting list is the prefix before the match followed by the suffix
after it, the count of the matched token drops by one, and the count of
every other token is unchanged, so every other element and its relative
order are preserved. -/
theorem C10_pop_removes_matched_token (names args : List String) (i : Nat)
    (h : findCommandIdx names args = some i) :
    i < args.length ∧
    names.contains (args.getD i "") = true ∧
    args.eraseIdx i = args.take i ++ args.drop (i + 1) ∧
    popFirstMatch names args =
      some (args.getD i "", args.take i ++ args.drop (i + 1)) ∧
    commandsDispatch names args =
      RunOutcome.invoked (args.getD i "") (args.take i ++ args.drop (i + 1)) ∧
    List.count (args.getD i "") (args.eraseIdx i) + 1 =
      List.count (args.getD i "") args ∧
    (∀ x, x ≠ args.getD i "" →
      List.count x (args.eraseIdx i) = List.count x args) := by
  obtain ⟨hlt, hcon⟩ := findCommandIdx_some names args i h
  have htok : args.getD i "" = args[i] := List.getD_eq_getElem args "" hlt
  have herase : args.eraseIdx i = args.take i ++ args.drop (i + 1) :=
    List.eraseIdx_eq_take_drop_succ args i
  have hdrop : List.drop i args = args.getD i "" :: List.drop (i + 1) args := by
    rw [List.drop_eq_getElem_cons hlt, ← htok]
  have hdecomp : args = List.take i args ++ args.getD i "" :: List.drop (i + 1) args := by
    rw [← hdrop, List.take_append_drop]
  have hcnt : ∀ x, List.count x args =
      List.count x (List.take i args) +
        (List.count x (List.drop (i + 1) args) +
          if (args.getD i "" == x) = true then 1 else 0) := by
    intro x
    conv_lhs => rw [hdecomp]
    rw [List.count_append, List.count_cons]
  have hpop : popFirstMatch names args =
      some (args.getD i "", args.take i ++ args.drop (i + 1)) := by
    rw [popFirstMatch, h]
    show some (args.getD i "", args.eraseIdx i) = _
    rw [herase]
  refine ⟨hlt, hcon, herase, hpop, ?_, ?_, ?_⟩
  · rw [commandsDispatch, hpop]
  · rw [herase, List.count_append, hcnt (args.getD i "")]
    simp [Nat.add_assoc]
  · intro x hx
    rw [herase, List.count_append, hcnt x]
    have hbeq : (args.getD i "" == x) = false :=
      beq_eq_false_iff_ne.mpr (fun hh => hx hh.symm)
    rw [hbeq]
    simp

/-- Witness for claim C10: dispatching the tokens
(--debug, test, hello) against the registered name test removes the
matched token at index 1 and preserves the other tokens in order. -/
theorem C10_pop_removes_matched_token_witness :
    popFirstMatch ["test"] ["--debug", "test", "hello"] =
      some ("test", ["--debug", "hello"]) ∧
    commandsDispatch ["test"] ["--debug", "test", "hello"] =
      RunOutcome.invoked "test" ["--debug", "hello"] := by
  have h := C10_pop_removes_matched_token ["test"] ["--debug", "test", "hello"] 1
    (by decide)
  exact ⟨h.2.2.2.1.trans (by decide), h.2.2.2.2.1.trans (by decide)⟩

end Subcommand
